import Mathlib

/-!
Verification of `src/fontforge_x_version_font_generate.py` against its
natural-language specification.

The core of the program is `FontX.modify` (lines 93-118), which computes new
vertical metrics for an "x version" font.  Line 103 reads

    self.font.ascent = math.ceil(fixed_width * 2 / formal_em * formal_ascent)

where `fixed_width`, `formal_em` and `formal_ascent` are Python integers.  In
CPython, `int / int` is correctly rounded IEEE-754 binary64 true division,
`float * int` first converts the integer to the nearest binary64 value and
then performs a correctly rounded binary64 multiplication, and `math.ceil`
returns the exact mathematical ceiling of the (exact, dyadic-rational) value
of its float argument.  We embed this arithmetic exactly: a binary64 value is
represented as a dyadic pair `(m, g) : ℤ × ℤ` standing for the rational
`m * 2 ^ g`, and rounding to nearest (ties to even) at 53 significant bits is
computed with exact integer arithmetic.  Overflow to infinity and subnormal
underflow are not modelled; all quantities appearing in the claims lie well
inside the normal range, where this model coincides with IEEE binary64.
-/

set_option maxRecDepth 10000

/-- Fuel-driven halving count: for `1 ≤ n/d` (with `0 < d`) and enough fuel,
`blogAuxI fuel n d` is `⌊log₂ (n/d)⌋`.  Each step doubles `d`. -/
def blogAuxI : ℕ → ℤ → ℤ → ℕ
  | 0, _, _ => 0
  | fuel+1, n, d => if n < 2 * d then 0 else blogAuxI fuel n (2 * d) + 1

/-- Fuel-driven doubling count: for `0 < n/d < 1` and enough fuel,
`clogAuxI fuel n d` is the least `c` with `1 ≤ (n/d) * 2 ^ c`. -/
def clogAuxI : ℕ → ℤ → ℤ → ℕ
  | 0, _, _ => 0
  | fuel+1, n, d => if d ≤ n then 0 else clogAuxI fuel (2 * n) d + 1

/-- Binary exponent `⌊log₂ (n/d)⌋` of a positive rational given as a pair of
positive integers. -/
def qexpI (n d : ℤ) : ℤ :=
  if d ≤ n then (blogAuxI n.natAbs n d : ℤ) else -(clogAuxI d.natAbs n d : ℤ)

/-- Round `N / D` (with `0 < D`) to the nearest integer, ties to even. -/
def rheInt (N D : ℤ) : ℤ :=
  let f := N / D
  let r := N % D
  if 2 * r < D then f
  else if D < 2 * r then f + 1
  else if f % 2 = 0 then f else f + 1

/-- Round the positive rational `n / d` to the nearest binary64 value
(53 significant bits, ties to even), returned as a dyadic pair `(m, g)`
standing for `m * 2 ^ g`. -/
def roundFlPos (n d : ℤ) : ℤ × ℤ :=
  let e := qexpI n d
  let m := if e ≤ 52 then rheInt (n * 2 ^ (52 - e).toNat) d
           else rheInt n (d * 2 ^ (e - 52).toNat)
  (m, e - 52)

/-- Negate a dyadic pair. -/
def negPair (p : ℤ × ℤ) : ℤ × ℤ := (-p.1, p.2)

/-- Round the rational `n / d` to the nearest binary64 value (sign-aware
wrapper around `roundFlPos`). -/
def roundFl (n d : ℤ) : ℤ × ℤ :=
  if 0 < n then
    (if 0 < d then roundFlPos n d else negPair (roundFlPos n (-d)))
  else if n < 0 then
    (if 0 < d then negPair (roundFlPos (-n) d) else roundFlPos (-n) (-d))
  else (0, 0)

/-- Round the dyadic rational `M * 2 ^ G` to the nearest binary64 value: the
result of an IEEE binary64 multiplication of two binary64 values is the
correctly rounded exact (dyadic) product. -/
def roundFlDyadic (M G : ℤ) : ℤ × ℤ :=
  if 0 ≤ G then roundFl (M * 2 ^ G.toNat) 1 else roundFl M (2 ^ (-G).toNat)

/-- Exact mathematical ceiling of the dyadic rational `M * 2 ^ G`, as
computed by Python's `math.ceil` on a float. -/
def ceilPow2 (M G : ℤ) : ℤ :=
  if 0 ≤ G then M * 2 ^ G.toNat else -((-M) / 2 ^ (-G).toNat)

/-- Model of source line 103,
`math.ceil(fixed_width * 2 / formal_em * formal_ascent)` under CPython
semantics: `w * 2 / em` is correctly rounded binary64 division of integers,
the result is multiplied (binary64) by the binary64 value nearest to `a`,
and `math.ceil` takes the exact ceiling. -/
def newAscentCode (em a w : ℤ) : ℤ :=
  let q := roundFl (w * 2) em
  let af := roundFl a 1
  let r := roundFlDyadic (q.1 * af.1) (q.2 + af.2)
  ceilPow2 r.1 r.2

/-- Modelled from the spec: `newAscent = ceil(fixedWidth * 2 * oldAscent / em)`
with exact rational arithmetic (spec section 4.1 step 2 and section 8).  Kept
separate from `newAscentCode`, which embeds the source's floating-point
computation, so the two can be compared. -/
def newAscentSpec (em a w : ℤ) : ℤ := ⌈((w : ℚ) * 2 * a) / em⌉

/-- Scalar metric fields written by `FontX.modify` (source lines 103-113). -/
structure FontMetrics where
  ascent : ℤ
  descent : ℤ
  os2_winascent : ℤ
  os2_windescent : ℤ
  os2_typoascent : ℤ
  os2_typodescent : ℤ
  hhea_ascent : ℤ
  hhea_descent : ℤ
  upos : ℤ
deriving DecidableEq

/-- Metric computation of `FontX.modify` (source lines 100-113), given the
fixed glyph width `w`, the original ascent `a`, the original em size `em` and
the configured underline-thickness preset.  Python raises `ZeroDivisionError`
at line 103 when `em = 0`; this is modelled by returning `none`.  This is the
total value-level model: CPython's further error paths at line 103 — the
`OverflowError`s raised at astronomically large inputs — are modelled
separately by `modifyCalcE`, which refines this function (`modifyCalcE_ok`). -/
def modifyCalc (em a w thickness : ℤ) : Option FontMetrics :=
  if em = 0 then none
  else
    let ascent := newAscentCode em a w
    let descent := w * 2 - ascent
    some
      { ascent := ascent
        descent := descent
        os2_winascent := ascent
        os2_windescent := descent
        os2_typoascent := ascent
        os2_typodescent := -1 * descent
        hhea_ascent := ascent
        hhea_descent := -1 * descent
        upos := -1 * (descent - thickness) }

/-- CPython exceptions that can escape the arithmetic of source line 103:
`ZeroDivisionError` from the integer true division when the em size is zero,
and `OverflowError` when the correctly rounded quotient or the
integer-to-float conversion of the ascent reaches magnitude `2 ^ 1024`, or
when `math.ceil` is applied to an overflowed (infinite) product. -/
inductive PyExc where
  | zeroDivisionError
  | overflowError
deriving DecidableEq

/-- Overflow test for a dyadic pair: does `|m * 2 ^ g|` reach `2 ^ 1024`,
the magnitude at which a binary64 result ceases to be finite?  CPython
raises `OverflowError` exactly when an int/int division or an int-to-float
conversion rounds to at least this magnitude, and an IEEE multiplication
that rounds to at least this magnitude returns an infinity, on which
`math.ceil` raises. -/
def overflow64 (p : ℤ × ℤ) : Bool :=
  if 0 ≤ p.2 then decide ((2 : ℕ) ^ 1024 ≤ p.1.natAbs * 2 ^ p.2.toNat)
  else decide ((2 : ℕ) ^ 1024 * 2 ^ (-p.2).toNat ≤ p.1.natAbs)

/-- Fallible model of the metric computation with CPython's error paths at
source line 103 made explicit, in evaluation order: `em = 0` raises a bare
`ZeroDivisionError` (carrying no font information); an overflowing quotient
`fixed_width * 2 / formal_em` raises `OverflowError`; an overflowing
int-to-float conversion of `formal_ascent` raises `OverflowError`; an
overflowed (infinite) product makes `math.ceil` raise `OverflowError`.
When no exception occurs the produced metrics coincide with `modifyCalc`
(theorem `modifyCalcE_ok`).  Subnormal underflow, which is silent in IEEE
arithmetic and raises nothing, remains outside the model. -/
def modifyCalcE (em a w thickness : ℤ) : Except PyExc FontMetrics :=
  if em = 0 then Except.error PyExc.zeroDivisionError
  else
    let q := roundFl (w * 2) em
    if overflow64 q then Except.error PyExc.overflowError
    else
      let af := roundFl a 1
      if overflow64 af then Except.error PyExc.overflowError
      else
        let r := roundFlDyadic (q.1 * af.1) (q.2 + af.2)
        if overflow64 r then Except.error PyExc.overflowError
        else
          let ascent := ceilPow2 r.1 r.2
          let descent := w * 2 - ascent
          Except.ok
            { ascent := ascent
              descent := descent
              os2_winascent := ascent
              os2_windescent := descent
              os2_typoascent := ascent
              os2_typodescent := -1 * descent
              hhea_ascent := ascent
              hhea_descent := -1 * descent
              upos := -1 * (descent - thickness) }

/-- Prefix test on character lists. -/
def isPref : List Char → List Char → Bool
  | [], _ => true
  | _ :: _, [] => false
  | a :: as, b :: bs => a == b && isPref as bs

/-- Substring test: `hasSub pat s` is `true` iff `pat` occurs contiguously
in `s`. -/
def hasSub : List Char → List Char → Bool
  | pat, [] => isPref pat []
  | pat, c :: rest => isPref pat (c :: rest) || hasSub pat rest

/-- String containment: does `s` contain `pat` as a contiguous substring? -/
def strContains (s pat : String) : Bool := hasSub pat.data s.data

/-- String prefix test. -/
def strIsPref (p s : String) : Bool := isPref p.data s.data

/-- String suffix test. -/
def strIsSuffix (p s : String) : Bool := isPref p.data.reverse s.data.reverse

/-- Naming fields of the font document touched by `FontX.modify`
(source lines 94-97 and 115-116). -/
structure NamingState where
  fontname : String
  familyname : String
  fullname : String
  comment : String
  copyright : String
deriving DecidableEq

/-- Provenance comment built at source line 115:
`f'This font is the X version(EM W:H=1:2) of {self.old_name}'`. -/
def mkComment (oldName : String) : String :=
  "This font is the X version(EM W:H=1:2) of " ++ oldName

/-- Renaming performed by `FontX.modify` (source lines 94-97 and 115-116):
the old name is captured from `fontname` before it is overwritten, the three
name fields are set to the new name, the comment is replaced with the
provenance note, and the new comment is appended to the copyright on a new
line. -/
def renameFont (newName : String) (st : NamingState) : NamingState :=
  let oldName := st.fontname
  let comment := mkComment oldName
  { fontname := newName
    familyname := newName
    fullname := newName
    comment := comment
    copyright := st.copyright ++ ("\n" ++ comment) }

/-- POSIX `os.path.isabs` (used at source line 84): a path is absolute iff
it starts with a slash. -/
def isAbsPath (s : String) : Bool :=
  match s.data with
  | [] => false
  | c :: _ => c == '/'

/-- Model of `pathlib`'s `/` operator for a relative right operand: join
with a single separator. -/
def pathJoin (p q : String) : String := p ++ ("/" ++ q)

/-- Source path resolution (source line 84):
`self.working_dir / _src if not os.path.isabs(_src) else _src`. -/
def sourceFilePath (workingDir src : String) : String :=
  if isAbsPath src then src else pathJoin workingDir src

/-- Per-font output directory (source line 78): `working_dir / new_name`. -/
def targetDir (workingDir newName : String) : String :=
  pathJoin workingDir newName

/-- Name of the copied source document (source line 85):
`target_dir / (new_name + '.sfd')` — the `.sfd` extension is hard-coded. -/
def targetSourceFile (workingDir newName : String) : String :=
  pathJoin (targetDir workingDir newName) (newName ++ ".sfd")

/-- Name of the compiled binary font (source line 86):
`target_dir / (new_name + '.ttf')`. -/
def targetExportedFile (workingDir newName : String) : String :=
  pathJoin (targetDir workingDir newName) (newName ++ ".ttf")

/-- Modelled from the spec: "the source document's own format extension" is
the suffix of the configured source file name from its last dot (so
`extOf "a.otf" = ".otf"`).  Kept separate from the source-derived
definitions, which hard-code `.sfd`, so the two can be compared. -/
def extOf (s : String) : String :=
  let rev := s.data.reverse
  let base := rev.takeWhile (fun c => !(c == '.' || c == '/'))
  match rev.drop base.length with
  | '.' :: _ => ⟨'.' :: base.reverse⟩
  | _ => ⟨[]⟩

/-! Rational semantics of the binary64 model. -/

/-- Rational value denoted by a dyadic pair. -/
def pairVal (p : ℤ × ℤ) : ℚ := (p.1 : ℚ) * 2 ^ p.2

/-- Relative error bound of binary64 round-to-nearest: `2 ^ (-53)`. -/
def eps64 : ℚ := (2 : ℚ) ^ (-53 : ℤ)

theorem blogAuxI_spec (fuel : ℕ) :
    ∀ n d : ℤ, 0 < d → d ≤ n → (n : ℚ) < (d : ℚ) * 2 ^ fuel →
      (d : ℚ) * 2 ^ blogAuxI fuel n d ≤ (n : ℚ) ∧
      (n : ℚ) < (d : ℚ) * 2 ^ (blogAuxI fuel n d + 1) := by
  induction fuel with
  | zero =>
      intro n d _ hdn hlt
      have h1 : (d : ℚ) ≤ (n : ℚ) := by exact_mod_cast hdn
      simp only [pow_zero, mul_one] at hlt
      exact absurd hlt (not_lt.mpr h1)
  | succ fuel ih =>
      intro n d hd hdn hlt
      by_cases h : n < 2 * d
      · have hq : (n : ℚ) < 2 * d := by exact_mod_cast h
        have h1 : (d : ℚ) ≤ (n : ℚ) := by exact_mod_cast hdn
        simp only [blogAuxI, h, if_true]
        constructor
        · simpa using h1
        · simpa [pow_succ] using by linarith
      · have h2d : (2 : ℤ) * d ≤ n := le_of_not_lt h
        have hrec := ih n (2 * d) (by linarith) h2d
          (by push_cast; push_cast at hlt; rw [pow_succ] at hlt; linarith)
        simp only [blogAuxI, h, if_false]
        push_cast at hrec ⊢
        constructor
        · calc (d : ℚ) * 2 ^ (blogAuxI fuel n (2 * d) + 1)
              = (2 * d : ℚ) * 2 ^ blogAuxI fuel n (2 * d) := by rw [pow_succ]; ring
            _ ≤ (n : ℚ) := hrec.1
        · calc (n : ℚ) < (2 * d : ℚ) * 2 ^ (blogAuxI fuel n (2 * d) + 1) := hrec.2
            _ = (d : ℚ) * 2 ^ (blogAuxI fuel n (2 * d) + 1 + 1) := by
                rw [pow_succ, pow_succ, pow_succ]; ring
  -- end

theorem clogAuxI_spec (fuel : ℕ) :
    ∀ n d : ℤ, 0 < n → n < d → (d : ℚ) ≤ (n : ℚ) * 2 ^ fuel →
      (d : ℚ) ≤ (n : ℚ) * 2 ^ clogAuxI fuel n d ∧
      (n : ℚ) * 2 ^ clogAuxI fuel n d < 2 * d := by
  induction fuel with
  | zero =>
      intro n d _ hnd hle
      have h1 : (n : ℚ) < (d : ℚ) := by exact_mod_cast hnd
      simp only [pow_zero, mul_one] at hle
      exact absurd h1 (not_lt.mpr hle)
  | succ fuel ih =>
      intro n d hn hnd hle
      have hnd' : ¬ d ≤ n := not_le.mpr hnd
      by_cases h : d ≤ 2 * n
      · have hz : clogAuxI fuel (2 * n) d = 0 := by
          cases fuel with
          | zero => rfl
          | succ fuel => simp [clogAuxI, h]
        have hq : (d : ℚ) ≤ 2 * n := by exact_mod_cast h
        have hq2 : (n : ℚ) < d := by exact_mod_cast hnd
        simp only [clogAuxI, hnd', if_false, hz]
        constructor
        · simpa [pow_succ] using by linarith
        · simpa [pow_succ] using by linarith
      · have h2n : ¬ d ≤ 2 * n := h
        have hrec := ih (2 * n) d (by linarith) (lt_of_not_le h)
          (by push_cast; push_cast at hle; rw [pow_succ] at hle; linarith)
        simp only [clogAuxI, hnd', if_false]
        push_cast at hrec ⊢
        constructor
        · calc (d : ℚ) ≤ (2 * n : ℚ) * 2 ^ clogAuxI fuel (2 * n) d := hrec.1
            _ = (n : ℚ) * 2 ^ (clogAuxI fuel (2 * n) d + 1) := by rw [pow_succ]; ring
        · calc (n : ℚ) * 2 ^ (clogAuxI fuel (2 * n) d + 1)
              = (2 * n : ℚ) * 2 ^ clogAuxI fuel (2 * n) d := by rw [pow_succ]; ring
            _ < 2 * d := hrec.2
  -- end

theorem qexpI_spec (n d : ℤ) (hn : 0 < n) (hd : 0 < d) :
    (d : ℚ) * 2 ^ qexpI n d ≤ (n : ℚ) ∧ (n : ℚ) < (d : ℚ) * 2 ^ (qexpI n d + 1) := by
  have hd1 : (1 : ℚ) ≤ (d : ℚ) := by exact_mod_cast hd
  have hn1 : (1 : ℚ) ≤ (n : ℚ) := by exact_mod_cast hn
  by_cases hdn : d ≤ n
  · have hfuel : (n : ℚ) < (d : ℚ) * 2 ^ n.natAbs := by
      have h1 : (n : ℚ) < 2 ^ n.natAbs := by
        have := Nat.lt_two_pow n.natAbs
        have h2 : (n : ℚ) = (n.natAbs : ℚ) := by
          rw [Int.cast_natAbs]; simp [abs_of_pos hn]
        rw [h2]; exact_mod_cast this
      have h2 : (2 : ℚ) ^ n.natAbs ≤ (d : ℚ) * 2 ^ n.natAbs := by
        nlinarith [pow_pos (by norm_num : (0:ℚ) < 2) n.natAbs]
      linarith
    have hb := blogAuxI_spec n.natAbs n d hd hdn hfuel
    simp only [qexpI, hdn, if_true]
    constructor
    · rw [zpow_natCast]; exact hb.1
    · have : ((blogAuxI n.natAbs n d : ℤ) + 1) = ((blogAuxI n.natAbs n d + 1 : ℕ) : ℤ) := by
        push_cast; ring
      rw [this, zpow_natCast]; exact_mod_cast hb.2
  · have hnd : n < d := lt_of_not_le hdn
    have hfuel : (d : ℚ) ≤ (n : ℚ) * 2 ^ d.natAbs := by
      have h1 : (d : ℚ) < 2 ^ d.natAbs := by
        have := Nat.lt_two_pow d.natAbs
        have h2 : (d : ℚ) = (d.natAbs : ℚ) := by
          rw [Int.cast_natAbs]; simp [abs_of_pos hd]
        rw [h2]; exact_mod_cast this
      nlinarith [pow_pos (by norm_num : (0:ℚ) < 2) d.natAbs]
    have hc := clogAuxI_spec d.natAbs n d hn hnd hfuel
    simp only [qexpI, hdn, if_false]
    have h2c : (0 : ℚ) < 2 ^ clogAuxI d.natAbs n d := pow_pos (by norm_num) _
    constructor
    · have heq : (d : ℚ) * 2 ^ (-(clogAuxI d.natAbs n d : ℤ)) =
          (d : ℚ) / 2 ^ clogAuxI d.natAbs n d := by
        rw [zpow_neg, zpow_natCast, div_eq_mul_inv]
      rw [heq, div_le_iff h2c]
      exact hc.1
    · have heq : (d : ℚ) * 2 ^ (-(clogAuxI d.natAbs n d : ℤ) + 1) =
          2 * (d : ℚ) / 2 ^ clogAuxI d.natAbs n d := by
        rw [zpow_add₀ (two_ne_zero), zpow_neg, zpow_natCast, zpow_one, div_eq_mul_inv]
        ring
      rw [heq, lt_div_iff h2c]
      exact hc.2
  -- end

theorem rheInt_bounds (N D : ℤ) (hD : 0 < D) :
    (N : ℚ) / D - 1 / 2 ≤ (rheInt N D : ℚ) ∧ (rheInt N D : ℚ) ≤ (N : ℚ) / D + 1 / 2 := by
  have hD' : (0 : ℚ) < (D : ℚ) := by exact_mod_cast hD
  have hdvd : D * (N / D) + N % D = N := Int.ediv_add_emod N D
  have hr0 : 0 ≤ N % D := Int.emod_nonneg N (ne_of_gt hD)
  have hrD : N % D < D := Int.emod_lt_of_pos N hD
  have hcast : (N : ℚ) = (D : ℚ) * ((N / D : ℤ) : ℚ) + ((N % D : ℤ) : ℚ) := by
    exact_mod_cast hdvd.symm
  have hexp : (N : ℚ) / D = ((N / D : ℤ) : ℚ) + ((N % D : ℤ) : ℚ) / D := by
    rw [hcast, add_div, mul_comm, mul_div_assoc, div_self (ne_of_gt hD'), mul_one]
  have hR0 : (0 : ℚ) ≤ ((N % D : ℤ) : ℚ) := by exact_mod_cast hr0
  have hRD : ((N % D : ℤ) : ℚ) < (D : ℚ) := by exact_mod_cast hrD
  have hRDlt1 : ((N % D : ℤ) : ℚ) / D < 1 := (div_lt_one hD').mpr hRD
  have hRD0 : (0 : ℚ) ≤ ((N % D : ℤ) : ℚ) / D := div_nonneg hR0 (le_of_lt hD')
  simp only [rheInt]
  split_ifs with h1 h2 h3
  · have hh : ((N % D : ℤ) : ℚ) / D < 1 / 2 := by
      rw [div_lt_div_iff hD' (by norm_num : (0:ℚ) < 2)]
      have : (2 : ℚ) * ((N % D : ℤ) : ℚ) < (D : ℚ) := by exact_mod_cast h1
      linarith
    rw [hexp]
    constructor <;> linarith
  · have hh : (1 : ℚ) / 2 < ((N % D : ℤ) : ℚ) / D := by
      rw [div_lt_div_iff (by norm_num : (0:ℚ) < 2) hD']
      have : (D : ℚ) < 2 * ((N % D : ℤ) : ℚ) := by exact_mod_cast h2
      linarith
    rw [hexp]
    push_cast
    constructor <;> linarith
  · have htie : 2 * (N % D) = D := by omega
    have hh : ((N % D : ℤ) : ℚ) / D = 1 / 2 := by
      have h2R : (2 : ℚ) * ((N % D : ℤ) : ℚ) = (D : ℚ) := by exact_mod_cast htie
      rw [div_eq_div_iff (ne_of_gt hD') (by norm_num : (2:ℚ) ≠ 0)]
      linarith
    rw [hexp]
    constructor <;> linarith
  · have htie : 2 * (N % D) = D := by omega
    have hh : ((N % D : ℤ) : ℚ) / D = 1 / 2 := by
      have h2R : (2 : ℚ) * ((N % D : ℤ) : ℚ) = (D : ℚ) := by exact_mod_cast htie
      rw [div_eq_div_iff (ne_of_gt hD') (by norm_num : (2:ℚ) ≠ 0)]
      linarith
    rw [hexp]
    push_cast
    constructor <;> linarith
  -- end

theorem rheInt_exact (N D : ℤ) (hD : 0 < D) (h : D ∣ N) :
    (rheInt N D : ℚ) = (N : ℚ) / D := by
  have hr : N % D = 0 := Int.emod_eq_zero_of_dvd h
  have hD' : (0 : ℚ) < (D : ℚ) := by exact_mod_cast hD
  have hdvd : D * (N / D) = N := by
    have h0 := Int.ediv_add_emod N D
    rw [hr, add_zero] at h0
    exact h0
  simp only [rheInt, hr, mul_zero, hD, if_true]
  rw [eq_div_iff (ne_of_gt hD'), mul_comm]
  exact_mod_cast hdvd

theorem roundFlPos_val (n d : ℤ) (hn : 0 < n) (hd : 0 < d) :
    (n : ℚ) / d * (1 - eps64) ≤ pairVal (roundFlPos n d) ∧
    pairVal (roundFlPos n d) ≤ (n : ℚ) / d * (1 + eps64) := by
  have hd' : (0 : ℚ) < (d : ℚ) := by exact_mod_cast hd
  have hn' : (0 : ℚ) < (n : ℚ) := by exact_mod_cast hn
  obtain ⟨hlo, hhi⟩ := qexpI_spec n d hn hd
  set e := qexpI n d with he
  have hqlow : (2 : ℚ) ^ e ≤ (n : ℚ) / d := by
    rw [le_div_iff hd']
    calc (2 : ℚ) ^ e * d = (d : ℚ) * 2 ^ e := by ring
      _ ≤ (n : ℚ) := hlo
  have key : ∃ N D : ℤ, 0 < D ∧ roundFlPos n d = (rheInt N D, e - 52) ∧
      (N : ℚ) / D = (n : ℚ) / d * 2 ^ ((52 : ℤ) - e) := by
    by_cases h52 : e ≤ 52
    · refine ⟨n * 2 ^ (52 - e).toNat, d, hd, ?_, ?_⟩
      · simp only [roundFlPos, ← he, h52, if_true]
      · have htn : (((52 - e).toNat : ℕ) : ℤ) = 52 - e := Int.toNat_of_nonneg (by omega)
        push_cast
        rw [← zpow_natCast (2 : ℚ) (52 - e).toNat, htn, div_mul_eq_mul_div]
    · refine ⟨n, d * 2 ^ (e - 52).toNat, ?_, ?_, ?_⟩
      · exact mul_pos hd (pow_pos (by norm_num) _)
      · simp only [roundFlPos, ← he, h52, if_false]
      · have htn : (((e - 52).toNat : ℕ) : ℤ) = e - 52 := Int.toNat_of_nonneg (by omega)
        push_cast
        rw [← zpow_natCast (2 : ℚ) (e - 52).toNat, htn,
          show (52 : ℤ) - e = -(e - 52) by ring, zpow_neg]
        rw [div_mul_eq_mul_div, div_eq_div_iff (by positivity) (ne_of_gt hd')]
        have hz : (2 : ℚ) ^ ((e : ℤ) - 52) ≠ 0 := ne_of_gt (zpow_pos (by norm_num) _)
        field_simp
        ring
  obtain ⟨N, D, hD, hrfl, hND⟩ := key
  obtain ⟨hm1, hm2⟩ := rheInt_bounds N D hD
  rw [hND] at hm1 hm2
  have hpv : pairVal (roundFlPos n d) = (rheInt N D : ℚ) * 2 ^ ((e : ℤ) - 52) := by
    rw [hrfl]; rfl
  have h2e52 : (0 : ℚ) < 2 ^ ((e : ℤ) - 52) := zpow_pos (by norm_num) _
  have hcancel : (2 : ℚ) ^ ((52 : ℤ) - e) * 2 ^ ((e : ℤ) - 52) = 1 := by
    rw [← zpow_add₀ (two_ne_zero : (2 : ℚ) ≠ 0)]
    norm_num
  have hhalf : (1 : ℚ) / 2 * 2 ^ ((e : ℤ) - 52) = 2 ^ ((e : ℤ) - 53) := by
    rw [show (e : ℤ) - 53 = -1 + (e - 52) by ring, zpow_add₀ (two_ne_zero : (2 : ℚ) ≠ 0)]
    norm_num
  have heps : (2 : ℚ) ^ ((e : ℤ) - 53) ≤ (n : ℚ) / d * eps64 := by
    rw [show (e : ℤ) - 53 = e + -53 by ring, zpow_add₀ (two_ne_zero : (2 : ℚ) ≠ 0)]
    exact mul_le_mul_of_nonneg_right hqlow (le_of_lt (zpow_pos (by norm_num) _))
  constructor
  · rw [hpv]
    have hstep := mul_le_mul_of_nonneg_right hm1 (le_of_lt h2e52)
    calc (n : ℚ) / d * (1 - eps64) = (n : ℚ) / d - (n : ℚ) / d * eps64 := by ring
      _ ≤ (n : ℚ) / d - 2 ^ ((e : ℤ) - 53) := by linarith
      _ = ((n : ℚ) / d * 2 ^ ((52 : ℤ) - e) - 1 / 2) * 2 ^ ((e : ℤ) - 52) := by
          rw [sub_mul, mul_assoc, hcancel, mul_one, hhalf]
      _ ≤ (rheInt N D : ℚ) * 2 ^ ((e : ℤ) - 52) := hstep
  · rw [hpv]
    have hstep := mul_le_mul_of_nonneg_right hm2 (le_of_lt h2e52)
    calc (rheInt N D : ℚ) * 2 ^ ((e : ℤ) - 52)
        ≤ ((n : ℚ) / d * 2 ^ ((52 : ℤ) - e) + 1 / 2) * 2 ^ ((e : ℤ) - 52) := hstep
      _ = (n : ℚ) / d + 2 ^ ((e : ℤ) - 53) := by
          rw [add_mul, mul_assoc, hcancel, mul_one, hhalf]
      _ ≤ (n : ℚ) / d + (n : ℚ) / d * eps64 := by linarith
      _ = (n : ℚ) / d * (1 + eps64) := by ring
  -- end

theorem roundFl_pos_eq (n d : ℤ) (hn : 0 < n) (hd : 0 < d) :
    roundFl n d = roundFlPos n d := by
  simp [roundFl, hn, hd]

theorem pairVal_pos {p : ℤ × ℤ} (h : 0 < p.1) : 0 < pairVal p :=
  mul_pos (by exact_mod_cast h) (zpow_pos (by norm_num) _)

theorem pairVal_pos_mantissa {p : ℤ × ℤ} (h : 0 < pairVal p) : 0 < p.1 := by
  by_contra hc
  push_neg at hc
  have h1 : (p.1 : ℚ) ≤ 0 := by exact_mod_cast hc
  have h2 : (0 : ℚ) < 2 ^ p.2 := zpow_pos (by norm_num) _
  unfold pairVal at h
  nlinarith

theorem pairVal_mul (p r : ℤ × ℤ) :
    pairVal (p.1 * r.1, p.2 + r.2) = pairVal p * pairVal r := by
  unfold pairVal
  push_cast
  rw [zpow_add₀ (two_ne_zero : (2 : ℚ) ≠ 0)]
  ring

theorem roundFl_int_val (k : ℤ) (h0 : 0 < k) (h53 : k ≤ 2 ^ 53) :
    pairVal (roundFl k 1) = (k : ℚ) := by
  rw [roundFl_pos_eq k 1 h0 one_pos]
  obtain ⟨hlo, hhi⟩ := qexpI_spec k 1 h0 one_pos
  set e := qexpI k 1 with he
  simp only [Int.cast_one, one_mul] at hlo hhi
  have he0 : 0 ≤ e := by
    by_contra hc
    push_neg at hc
    have h1 : e + 1 ≤ 0 := by omega
    have h2 : (2 : ℚ) ^ (e + 1) ≤ 1 := zpow_le_one_of_nonpos₀ (by norm_num) h1
    have h3 : (1 : ℚ) ≤ (k : ℚ) := by exact_mod_cast h0
    linarith
  have he53 : e ≤ 53 := by
    by_contra hc
    push_neg at hc
    have h1 : (54 : ℤ) ≤ e := by omega
    have h2 : (2 : ℚ) ^ (54 : ℤ) ≤ 2 ^ e := zpow_le_zpow_right₀ (by norm_num) h1
    have h4 : (2 : ℚ) ^ (54 : ℤ) ≤ (k : ℚ) := le_trans h2 hlo
    have h5 : (k : ℚ) ≤ 9007199254740992 := by exact_mod_cast h53
    norm_num at h4
    linarith
  by_cases h52 : e ≤ 52
  · have htn : (((52 - e).toNat : ℕ) : ℤ) = 52 - e := Int.toNat_of_nonneg (by omega)
    have hex := rheInt_exact (k * 2 ^ (52 - e).toNat) 1 one_pos (one_dvd _)
    simp only [roundFlPos, ← he, h52, if_true]
    unfold pairVal
    simp only
    rw [hex, Int.cast_one, div_one]
    push_cast
    rw [← zpow_natCast (2 : ℚ) (52 - e).toNat, htn, mul_assoc,
      ← zpow_add₀ (two_ne_zero : (2 : ℚ) ≠ 0)]
    norm_num
  · have he53' : e = 53 := by omega
    have hk : k = 2 ^ 53 := by
      have h1 : (2 : ℚ) ^ (53 : ℤ) ≤ (k : ℚ) := by rw [← he53']; exact hlo
      have h2 : (9007199254740992 : ℚ) ≤ (k : ℚ) := by norm_num at h1; linarith
      have h3 : (9007199254740992 : ℤ) ≤ k := by exact_mod_cast h2
      omega
    have hdvd : (2 : ℤ) ∣ k := by
      rw [hk]
      exact dvd_pow_self 2 (by norm_num)
    simp only [roundFlPos, ← he, h52, if_false]
    unfold pairVal
    simp only
    rw [he53']
    norm_num
    rw [rheInt_exact k 2 (by norm_num) hdvd]
    field_simp
  -- end

theorem roundFlDyadic_val (M G : ℤ) (hM : 0 < M) :
    (M : ℚ) * 2 ^ G * (1 - eps64) ≤ pairVal (roundFlDyadic M G) ∧
    pairVal (roundFlDyadic M G) ≤ (M : ℚ) * 2 ^ G * (1 + eps64) := by
  by_cases hG : 0 ≤ G
  · have htn : ((G.toNat : ℕ) : ℤ) = G := Int.toNat_of_nonneg hG
    have hn : (0 : ℤ) < M * 2 ^ G.toNat := mul_pos hM (pow_pos (by norm_num) _)
    have hval := roundFlPos_val (M * 2 ^ G.toNat) 1 hn one_pos
    have hq : ((M * 2 ^ G.toNat : ℤ) : ℚ) / ((1 : ℤ) : ℚ) = (M : ℚ) * 2 ^ G := by
      push_cast
      rw [div_one, ← zpow_natCast (2 : ℚ) G.toNat, htn]
    rw [hq] at hval
    simp only [roundFlDyadic, hG, if_true]
    rw [roundFl_pos_eq _ _ hn one_pos]
    exact hval
  · have htn : (((-G).toNat : ℕ) : ℤ) = -G := Int.toNat_of_nonneg (by omega)
    have hd : (0 : ℤ) < 2 ^ (-G).toNat := pow_pos (by norm_num) _
    have hval := roundFlPos_val M (2 ^ (-G).toNat) hM hd
    have hcast : ((2 ^ (-G).toNat : ℤ) : ℚ) = (2 : ℚ) ^ (-G : ℤ) := by
      push_cast
      rw [← zpow_natCast (2 : ℚ) (-G).toNat, htn]
    have hq : (M : ℚ) / ((2 ^ (-G).toNat : ℤ) : ℚ) = (M : ℚ) * 2 ^ G := by
      rw [hcast, div_eq_iff (ne_of_gt (zpow_pos (by norm_num) _)), mul_assoc,
        ← zpow_add₀ (two_ne_zero : (2 : ℚ) ≠ 0)]
      simp
    rw [hq] at hval
    simp only [roundFlDyadic, hG, if_false]
    rw [roundFl_pos_eq _ _ hM hd]
    exact hval
  -- end

theorem ceil_intCast_div_pow (j : ℤ) (k : ℕ) :
    ⌈(j : ℚ) / ((2 : ℚ) ^ k)⌉ = -((-j) / 2 ^ k) := by
  have h1 : ((2 : ℚ) ^ k) = (((2 ^ k : ℕ) : ℕ) : ℚ) := by push_cast; ring
  rw [show (j : ℚ) / ((2 : ℚ) ^ k) = -(((-j : ℤ) : ℚ) / ((2 : ℚ) ^ k)) by push_cast; ring]
  rw [Int.ceil_neg, h1, Rat.floor_intCast_div_natCast]
  congr 1
  norm_cast

theorem ceilPow2_eq (M G : ℤ) : ceilPow2 M G = ⌈(M : ℚ) * 2 ^ G⌉ := by
  by_cases hG : 0 ≤ G
  · have htn : ((G.toNat : ℕ) : ℤ) = G := Int.toNat_of_nonneg hG
    have hcast : (M : ℚ) * 2 ^ G = ((M * 2 ^ G.toNat : ℤ) : ℚ) := by
      push_cast
      rw [← zpow_natCast (2 : ℚ) G.toNat, htn]
    simp only [ceilPow2, hG, if_true]
    rw [hcast, Int.ceil_intCast]
  · have htn : (((-G).toNat : ℕ) : ℤ) = -G := Int.toNat_of_nonneg (by omega)
    have hx : (M : ℚ) * 2 ^ G = (M : ℚ) / ((2 : ℚ) ^ (-G).toNat) := by
      rw [div_eq_mul_inv, ← zpow_natCast (2 : ℚ) (-G).toNat, htn, ← zpow_neg]
      norm_num
    simp only [ceilPow2, hG, if_false]
    rw [hx, ceil_intCast_div_pow]

theorem newAscentCode_bounds (em a w : ℤ) (hem : 0 < em) (ha : 0 < a)
    (ha53 : a ≤ 2 ^ 53) (hw : 0 < w) :
    ∃ v : ℚ, newAscentCode em a w = ⌈v⌉ ∧ 0 < v ∧
      v ≤ ((w * 2 : ℤ) : ℚ) / (em : ℚ) * (a : ℚ) * ((1 + eps64) * (1 + eps64)) := by
  have hw2 : (0 : ℤ) < w * 2 := by omega
  have hX : (0 : ℚ) < ((w * 2 : ℤ) : ℚ) / (em : ℚ) := by
    have h1 : (0 : ℚ) < ((w * 2 : ℤ) : ℚ) := by exact_mod_cast hw2
    have h2 : (0 : ℚ) < (em : ℚ) := by exact_mod_cast hem
    positivity
  have heps1 : (0 : ℚ) < 1 - eps64 := by norm_num [eps64]
  have heps2 : (0 : ℚ) < 1 + eps64 := by norm_num [eps64]
  have hq := roundFlPos_val (w * 2) em hw2 hem
  set qp := roundFlPos (w * 2) em with hqp
  have hqval : (0 : ℚ) < pairVal qp := lt_of_lt_of_le (by positivity) hq.1
  have haf : pairVal (roundFl a 1) = (a : ℚ) := roundFl_int_val a ha ha53
  have hafpos : (0 : ℚ) < pairVal (roundFl a 1) := by
    rw [haf]
    exact_mod_cast ha
  have hM : 0 < qp.1 * (roundFl a 1).1 :=
    mul_pos (pairVal_pos_mantissa hqval) (pairVal_pos_mantissa hafpos)
  set r := roundFlDyadic (qp.1 * (roundFl a 1).1) (qp.2 + (roundFl a 1).2) with hr
  have hunfold : newAscentCode em a w = ceilPow2 r.1 r.2 := by
    simp only [newAscentCode, roundFl_pos_eq (w * 2) em hw2 hem, ← hqp, ← hr]
  have hPval : ((qp.1 * (roundFl a 1).1 : ℤ) : ℚ) * 2 ^ (qp.2 + (roundFl a 1).2) =
      pairVal qp * (a : ℚ) := by
    have := pairVal_mul qp (roundFl a 1)
    unfold pairVal at this
    rw [← haf]
    exact_mod_cast this
  have hdy := roundFlDyadic_val (qp.1 * (roundFl a 1).1) (qp.2 + (roundFl a 1).2) hM
  rw [hPval] at hdy
  refine ⟨pairVal r, ?_, ?_, ?_⟩
  · rw [hunfold, ceilPow2_eq]
    rfl
  · have hPpos : (0 : ℚ) < pairVal qp * (a : ℚ) := by
      have ha' : (0 : ℚ) < (a : ℚ) := by exact_mod_cast ha
      positivity
    calc (0 : ℚ) < pairVal qp * (a : ℚ) * (1 - eps64) := by positivity
      _ ≤ pairVal r := hdy.1
  · have ha' : (0 : ℚ) ≤ (a : ℚ) := by positivity
    calc pairVal r ≤ pairVal qp * (a : ℚ) * (1 + eps64) := hdy.2
      _ ≤ ((w * 2 : ℤ) : ℚ) / (em : ℚ) * (1 + eps64) * (a : ℚ) * (1 + eps64) := by
          have h1 : pairVal qp * (a : ℚ) ≤
              ((w * 2 : ℤ) : ℚ) / (em : ℚ) * (1 + eps64) * (a : ℚ) :=
            mul_le_mul_of_nonneg_right hq.2 ha'
          exact mul_le_mul_of_nonneg_right h1 (le_of_lt heps2)
      _ = ((w * 2 : ℤ) : ℚ) / (em : ℚ) * (a : ℚ) * ((1 + eps64) * (1 + eps64)) := by
          ring
  -- end

theorem isPref_refl (l : List Char) : isPref l l = true := by
  induction l with
  | nil => rfl
  | cons c t ih => simp [isPref, ih]

theorem isPref_append (l t : List Char) : isPref l (l ++ t) = true := by
  induction l with
  | nil => rfl
  | cons c cs ih => simp [isPref, ih]

theorem hasSub_append_self (pre s : List Char) : hasSub s (pre ++ s) = true := by
  induction pre with
  | nil =>
      cases s with
      | nil => rfl
      | cons c t =>
          simp only [List.nil_append, hasSub, isPref_refl, Bool.true_or]
  | cons c cs ih =>
      simp [hasSub, ih]

theorem strIsSuffix_append (a b : String) : strIsSuffix b (a ++ b) = true := by
  unfold strIsSuffix
  rw [String.data_append, List.reverse_append]
  exact isPref_append _ _

/-- Helper: the explicit result of `modifyCalc` when `em ≠ 0`, mirroring
source lines 103-113 field by field. -/
theorem modifyCalc_some (em a w t : ℤ) (hne : em ≠ 0) :
    modifyCalc em a w t = some
      { ascent := newAscentCode em a w
        descent := w * 2 - newAscentCode em a w
        os2_winascent := newAscentCode em a w
        os2_windescent := w * 2 - newAscentCode em a w
        os2_typoascent := newAscentCode em a w
        os2_typodescent := -1 * (w * 2 - newAscentCode em a w)
        hhea_ascent := newAscentCode em a w
        hhea_descent := -1 * (w * 2 - newAscentCode em a w)
        upos := -1 * ((w * 2 - newAscentCode em a w) - t) } := by
  simp [modifyCalc, hne]

/-- Helper: a dyadic pair whose (positive) value is below `2 ^ 1024` does
not trip the overflow test. -/
theorem overflow64_false_of_lt {p : ℤ × ℤ} (hpos : 0 < pairVal p)
    (h : pairVal p < (2 : ℚ) ^ (1024 : ℕ)) : overflow64 p = false := by
  have hm : 0 < p.1 := pairVal_pos_mantissa hpos
  have hmq : ((p.1.natAbs : ℕ) : ℚ) = (p.1 : ℚ) := by
    rw [Int.cast_natAbs, abs_of_pos hm]
  unfold overflow64
  split_ifs with hg
  · simp only [decide_eq_false_iff_not]
    intro hcon
    have htn : ((p.2.toNat : ℕ) : ℤ) = p.2 := Int.toNat_of_nonneg hg
    have hval : pairVal p = ((p.1.natAbs : ℕ) : ℚ) * 2 ^ (p.2.toNat : ℕ) := by
      unfold pairVal
      rw [hmq, ← zpow_natCast (2 : ℚ) p.2.toNat, htn]
    have hq : ((2 : ℚ)) ^ (1024 : ℕ) ≤ ((p.1.natAbs : ℕ) : ℚ) * 2 ^ (p.2.toNat : ℕ) := by
      exact_mod_cast hcon
    rw [← hval] at hq
    linarith
  · simp only [decide_eq_false_iff_not]
    intro hcon
    push_neg at hg
    have htn : (((-p.2).toNat : ℕ) : ℤ) = -p.2 := Int.toNat_of_nonneg (by omega)
    have hq : ((2 : ℚ)) ^ (1024 : ℕ) * 2 ^ ((-p.2).toNat : ℕ) ≤ (p.1 : ℚ) := by
      have hc : ((2 : ℚ)) ^ (1024 : ℕ) * 2 ^ ((-p.2).toNat : ℕ) ≤ ((p.1.natAbs : ℕ) : ℚ) := by
        exact_mod_cast hcon
      rw [hmq] at hc
      exact hc
    have h2p : (0 : ℚ) < 2 ^ p.2 := zpow_pos (by norm_num) _
    have hmul := mul_le_mul_of_nonneg_right hq (le_of_lt h2p)
    have hsimp : ((2 : ℚ)) ^ (1024 : ℕ) * 2 ^ ((-p.2).toNat : ℕ) * 2 ^ p.2 =
        2 ^ (1024 : ℕ) := by
      rw [mul_assoc, ← zpow_natCast (2 : ℚ) (-p.2).toNat, htn,
        ← zpow_add₀ (two_ne_zero : (2 : ℚ) ≠ 0)]
      norm_num
    rw [hsimp] at hmul
    unfold pairVal at h
    linarith
  -- end

/-- Helper: a dyadic pair with positive mantissa whose value reaches
`2 ^ 1024` trips the overflow test. -/
theorem overflow64_true_of_ge {p : ℤ × ℤ} (hm : 0 < p.1)
    (h : (2 : ℚ) ^ (1024 : ℕ) ≤ pairVal p) : overflow64 p = true := by
  have hmq : ((p.1.natAbs : ℕ) : ℚ) = (p.1 : ℚ) := by
    rw [Int.cast_natAbs, abs_of_pos hm]
  unfold overflow64
  split_ifs with hg
  · simp only [decide_eq_true_eq]
    have htn : ((p.2.toNat : ℕ) : ℤ) = p.2 := Int.toNat_of_nonneg hg
    have hval : pairVal p = ((p.1.natAbs : ℕ) : ℚ) * 2 ^ (p.2.toNat : ℕ) := by
      unfold pairVal
      rw [hmq, ← zpow_natCast (2 : ℚ) p.2.toNat, htn]
    rw [hval] at h
    exact_mod_cast h
  · simp only [decide_eq_true_eq]
    push_neg at hg
    have htn : (((-p.2).toNat : ℕ) : ℤ) = -p.2 := Int.toNat_of_nonneg (by omega)
    have h2k : (0 : ℚ) < 2 ^ ((-p.2).toNat : ℕ) := by positivity
    have hmul := mul_le_mul_of_nonneg_right h (le_of_lt h2k)
    have hsimp : pairVal p * 2 ^ ((-p.2).toNat : ℕ) = (p.1 : ℚ) := by
      unfold pairVal
      rw [mul_assoc, ← zpow_natCast (2 : ℚ) (-p.2).toNat, htn,
        ← zpow_add₀ (two_ne_zero : (2 : ℚ) ≠ 0)]
      norm_num
    rw [hsimp] at hmul
    have hq : ((2 : ℚ)) ^ (1024 : ℕ) * 2 ^ ((-p.2).toNat : ℕ) ≤
        ((p.1.natAbs : ℕ) : ℚ) := by
      rw [hmq]
      exact hmul
    exact_mod_cast hq
  -- end

/-- Helper: the binary64 rounding of the integer `2 ^ 1024` has value
exactly `2 ^ 1024` (in the unbounded-exponent model; a real binary64
division producing this value overflows). -/
theorem roundFl_two_pow_1024 :
    pairVal (roundFl ((2 : ℤ) ^ 1024) 1) = (2 : ℚ) ^ (1024 : ℕ) := by
  have hp : (0 : ℤ) < 2 ^ 1024 := pow_pos (by norm_num) _
  rw [roundFl_pos_eq _ _ hp one_pos]
  obtain ⟨hlo, hhi⟩ := qexpI_spec ((2 : ℤ) ^ 1024) 1 hp one_pos
  set e := qexpI ((2 : ℤ) ^ 1024) 1 with he
  simp only [Int.cast_one, one_mul] at hlo hhi
  have hcast : (((2 : ℤ) ^ 1024 : ℤ) : ℚ) = (2 : ℚ) ^ (1024 : ℕ) := by push_cast; ring
  rw [hcast] at hlo hhi
  have hzn : ∀ k : ℕ, (2 : ℚ) ^ ((k : ℕ) : ℤ) = 2 ^ (k : ℕ) := fun k => zpow_natCast 2 k
  have he1024 : e = 1024 := by
    by_contra hc
    rcases lt_or_gt_of_ne hc with hlt | hgt
    · have h1 : e + 1 ≤ ((1024 : ℕ) : ℤ) := by push_cast; omega
      have h2 : (2 : ℚ) ^ (e + 1) ≤ 2 ^ (((1024 : ℕ) : ℕ) : ℤ) :=
        zpow_le_zpow_right₀ (by norm_num) h1
      rw [hzn 1024] at h2
      linarith
    · have h1 : ((1024 : ℕ) : ℤ) + 1 ≤ e := by push_cast; omega
      have h2 : (2 : ℚ) ^ (((1024 : ℕ) : ℤ) + 1) ≤ 2 ^ e :=
        zpow_le_zpow_right₀ (by norm_num) h1
      have h3 : (2 : ℚ) ^ (((1024 : ℕ) : ℤ) + 1) = 2 ^ (1024 : ℕ) * 2 := by
        rw [zpow_add₀ (two_ne_zero : (2 : ℚ) ≠ 0), hzn 1024, zpow_one]
      rw [h3] at h2
      have h4 : (0 : ℚ) < 2 ^ (1024 : ℕ) := by positivity
      linarith
  have h52 : ¬ e ≤ 52 := by omega
  have htn : (e - 52).toNat = (972 : ℕ) := by
    rw [he1024]
    rfl
  simp only [roundFlPos, ← he, h52, if_false]
  unfold pairVal
  simp only
  rw [htn, he1024]
  have hdvd : ((1 : ℤ) * 2 ^ (972 : ℕ)) ∣ (2 : ℤ) ^ 1024 := by
    rw [one_mul]
    exact pow_dvd_pow 2 (by norm_num)
  rw [rheInt_exact _ _ (by positivity) hdvd]
  have hden : (((1 : ℤ) * 2 ^ (972 : ℕ) : ℤ) : ℚ) = (2 : ℚ) ^ (972 : ℕ) := by
    push_cast
    ring
  rw [hcast, hden]
  have hne : ((2 : ℚ) ^ (972 : ℕ)) ≠ 0 := by positivity
  have hz : ((2 : ℚ)) ^ ((1024 : ℤ) - 52) = 2 ^ (972 : ℕ) := by
    have h972 : ((1024 : ℤ) - 52) = ((972 : ℕ) : ℤ) := by norm_num
    rw [h972, hzn 972]
  rw [hz, div_mul_cancel₀ _ hne]

/-- Helper: whenever the fallible model completes without an exception, it
produces exactly the metrics of the total model `modifyCalc`. -/
theorem modifyCalcE_ok (em a w t : ℤ) (m : FontMetrics)
    (h : modifyCalcE em a w t = Except.ok m) : modifyCalc em a w t = some m := by
  by_cases hem : em = 0
  · rw [hem] at h
    simp [modifyCalcE] at h
  · rw [modifyCalc_some em a w t hem]
    simp only [modifyCalcE, hem, if_false] at h
    split_ifs at h with h1 h2 h3
    all_goals
      first
      | exact Except.noConfusion h
      | (simp only [Except.ok.injEq] at h
         subst h
         rfl)

/-- C1: the spec states that the new ascent equals the exact mathematical
ceiling `ceil(fixedWidth * 2 * oldAscent / em)` for every `em > 0`,
`0 < oldAscent < em`, `fixedWidth > 0`, and in particular `960` at
`em = 1000, oldAscent = 800, fixedWidth = 600`.  The spec's example does
hold, but the universal equality fails on the code: line 103 evaluates
`fixed_width * 2 / formal_em * formal_ascent` in binary64 floating point,
and at `em = 1000, oldAscent = 600, fixedWidth = 560` (an exact-division
case: `560 * 2 * 600 / 1000 = 672`) the rounded quotient `560 * 2 / 1000`
lies slightly above `1.12`, making the product `672.0000000000001…`, whose
ceiling is `673` instead of the exact ceiling `672`.  This theorem evaluates
the embedded code and the exact formula at both inputs. -/
theorem c1_float_ascent_deviates_from_exact_ceiling :
    newAscentCode 1000 800 600 = 960 ∧ newAscentSpec 1000 800 600 = 960 ∧
    newAscentCode 1000 600 560 = 673 ∧ newAscentSpec 1000 600 560 = 672 := by
  refine ⟨by decide, ?_, by decide, ?_⟩
  · have h : ((600 : ℚ) * 2 * 800) / 1000 = ((960 : ℤ) : ℚ) := by norm_num
    unfold newAscentSpec
    push_cast
    rw [h, Int.ceil_intCast]
  · have h : ((560 : ℚ) * 2 * 600) / 1000 = ((672 : ℤ) : ℚ) := by norm_num
    unfold newAscentSpec
    push_cast
    rw [h, Int.ceil_intCast]

/-- C2: for every `em > 0`, `0 < oldAscent < em` and `fixedWidth > 0`, the
transformed metrics satisfy `newAscent + newDescent = 2 * fixedWidth`
exactly: the descent is defined at source line 104 as
`fixed_width * 2 - self.font.ascent`, so the invariant holds by construction
for any rounding outcome of line 103. -/
theorem c2_ascent_plus_descent (em a w t : ℤ) (m : FontMetrics)
    (hem : 0 < em) (_ha0 : 0 < a) (_haem : a < em) (_hw : 0 < w)
    (h : modifyCalc em a w t = some m) :
    m.ascent + m.descent = 2 * w := by
  rw [modifyCalc_some em a w t (by omega)] at h
  simp only [Option.some.injEq] at h
  subst h
  dsimp only
  ring

/-- C2 witness at `em = 1000, oldAscent = 800, fixedWidth = 600`:
`960 + 240 = 1200`. -/
theorem c2_witness :
    (⟨960, 240, 960, 240, 960, -240, 960, -240, -149⟩ : FontMetrics).ascent +
      (⟨960, 240, 960, 240, 960, -240, 960, -240, -149⟩ : FontMetrics).descent =
      2 * 600 :=
  c2_ascent_plus_descent 1000 800 600 91 _ (by norm_num) (by norm_num)
    (by norm_num) (by norm_num) (by decide)

/-- C3: every computed metric set has `os2_winascent = ascent`,
`os2_windescent = descent`, `os2_typoascent = ascent`,
`os2_typodescent = -descent`, `hhea_ascent = ascent` and
`hhea_descent = -descent` (source lines 105-111), so the four metric field
pairs are mutually consistent with the single ascent/descent pair. -/
theorem c3_metric_fields_consistent (em a w t : ℤ) (m : FontMetrics)
    (h : modifyCalc em a w t = some m) :
    m.os2_winascent = m.ascent ∧ m.os2_windescent = m.descent ∧
    m.os2_typoascent = m.ascent ∧ m.os2_typodescent = -m.descent ∧
    m.hhea_ascent = m.ascent ∧ m.hhea_descent = -m.descent := by
  have hne : em ≠ 0 := by
    intro h0
    rw [h0] at h
    simp [modifyCalc] at h
  rw [modifyCalc_some em a w t hne] at h
  simp only [Option.some.injEq] at h
  subst h
  exact ⟨rfl, rfl, rfl, by dsimp only; ring, rfl, by dsimp only; ring⟩

/-- C3 witness at `em = 1000, oldAscent = 800, fixedWidth = 600`. -/
theorem c3_witness :
    (⟨960, 240, 960, 240, 960, -240, 960, -240, -149⟩ : FontMetrics).os2_winascent =
        (⟨960, 240, 960, 240, 960, -240, 960, -240, -149⟩ : FontMetrics).ascent ∧
      (⟨960, 240, 960, 240, 960, -240, 960, -240, -149⟩ : FontMetrics).os2_windescent =
        (⟨960, 240, 960, 240, 960, -240, 960, -240, -149⟩ : FontMetrics).descent ∧
      (⟨960, 240, 960, 240, 960, -240, 960, -240, -149⟩ : FontMetrics).os2_typoascent =
        (⟨960, 240, 960, 240, 960, -240, 960, -240, -149⟩ : FontMetrics).ascent ∧
      (⟨960, 240, 960, 240, 960, -240, 960, -240, -149⟩ : FontMetrics).os2_typodescent =
        -(⟨960, 240, 960, 240, 960, -240, 960, -240, -149⟩ : FontMetrics).descent ∧
      (⟨960, 240, 960, 240, 960, -240, 960, -240, -149⟩ : FontMetrics).hhea_ascent =
        (⟨960, 240, 960, 240, 960, -240, 960, -240, -149⟩ : FontMetrics).ascent ∧
      (⟨960, 240, 960, 240, 960, -240, 960, -240, -149⟩ : FontMetrics).hhea_descent =
        -(⟨960, 240, 960, 240, 960, -240, 960, -240, -149⟩ : FontMetrics).descent :=
  c3_metric_fields_consistent 1000 800 600 91 _ (by decide)

/-- C4: the underline position is `-(newDescent - underlineThicknessPreset)`
(source line 113) for every computed metric set. -/
theorem c4_underline_position (em a w t : ℤ) (m : FontMetrics)
    (h : modifyCalc em a w t = some m) :
    m.upos = -(m.descent - t) := by
  have hne : em ≠ 0 := by
    intro h0
    rw [h0] at h
    simp [modifyCalc] at h
  rw [modifyCalc_some em a w t hne] at h
  simp only [Option.some.injEq] at h
  subst h
  dsimp only
  ring

/-- C4 witness: at `em = 1000, oldAscent = 800, fixedWidth = 600,
preset = 91` the descent is `240` and the underline position is `-149`. -/
theorem c4_witness :
    (⟨960, 240, 960, 240, 960, -240, 960, -240, -149⟩ : FontMetrics).upos =
      -((⟨960, 240, 960, 240, 960, -240, 960, -240, -149⟩ : FontMetrics).descent - 91) :=
  c4_underline_position 1000 800 600 91 _ (by decide)

/-- C5 counterexample: the claim asserts that a zero em is rejected as an
invalid-input (invalid-metric) error identifying a malformed source font,
and that no other error condition originates inside the pure computation.
Neither part matches the code: at `em = 0` CPython raises a bare
`ZeroDivisionError` carrying no font information, and at `em = 1,
oldAscent = 1, fixedWidth = 2 ^ 1023` — a nonzero em — the integer true
division `fixed_width * 2 / formal_em` at line 103 already overflows
binary64 (`2 ^ 1024` is not a finite double) and raises `OverflowError`,
an error condition the claim says does not exist. -/
theorem c5_counterexample_error_paths :
    modifyCalcE 0 800 600 91 = Except.error PyExc.zeroDivisionError ∧
    (1 : ℤ) ≠ 0 ∧
    modifyCalcE 1 1 ((2 : ℤ) ^ 1023) 91 = Except.error PyExc.overflowError := by
  refine ⟨by rfl, by decide, ?_⟩
  have h1 : ((2 : ℤ) ^ 1023) * 2 = 2 ^ 1024 := by ring
  have hval : pairVal (roundFl ((2 : ℤ) ^ 1023 * 2) 1) = (2 : ℚ) ^ (1024 : ℕ) := by
    rw [h1, roundFl_two_pow_1024]
  have hq : overflow64 (roundFl ((2 : ℤ) ^ 1023 * 2) 1) = true := by
    apply overflow64_true_of_ge
    · apply pairVal_pos_mantissa
      rw [hval]
      positivity
    · rw [hval]
  simp only [modifyCalcE, one_ne_zero, if_false, hq, if_true]

/-- C5 (amended): when the em size is zero the metric computation fails
with a bare `ZeroDivisionError` — so a malformed source font aborts the run
rather than silently producing a degenerate font, though the error does not
specifically identify the font as malformed — and for every nonzero em the
only other error condition originating inside the pure computation is an
`OverflowError` at astronomically large inputs; for positive inputs bounded
by `2 ^ 51` (every realistic font) no error occurs at all and the fallible
model produces exactly the metrics of `modifyCalc`. -/
theorem c5_error_conditions :
    (∀ a w t : ℤ, modifyCalcE 0 a w t = Except.error PyExc.zeroDivisionError) ∧
    (∀ em a w t : ℤ, ∀ e : PyExc, em ≠ 0 → modifyCalcE em a w t = Except.error e →
      e = PyExc.overflowError) ∧
    (∀ em a w t : ℤ, 0 < em → 0 < a → 0 < w → em ≤ 2 ^ 51 → a ≤ 2 ^ 51 →
      w ≤ 2 ^ 51 →
      Except.toOption (modifyCalcE em a w t) = modifyCalc em a w t ∧
      (modifyCalcE em a w t).isOk = true) := by
  refine ⟨?_, ?_, ?_⟩
  · intro a w t
    simp [modifyCalcE]
  · intro em a w t e hne h
    simp only [modifyCalcE, hne, if_false] at h
    split_ifs at h with h1 h2 h3
    all_goals
      first
      | exact Except.noConfusion h
      | (simp only [Except.error.injEq] at h
         exact h.symm)
  · intro em a w t hem ha hw hembd habd hwbd
    have hne : em ≠ 0 := by omega
    have hw2 : (0 : ℤ) < w * 2 := by omega
    have hem' : (0 : ℚ) < (em : ℚ) := by exact_mod_cast hem
    have hone : (1 : ℚ) ≤ (em : ℚ) := by exact_mod_cast hem
    have hw2' : (0 : ℚ) < ((w * 2 : ℤ) : ℚ) := by exact_mod_cast hw2
    have heps1 : (0 : ℚ) < 1 - eps64 := by norm_num [eps64]
    have heps2 : (0 : ℚ) < 1 + eps64 := by norm_num [eps64]
    have hqeq : roundFl (w * 2) em = roundFlPos (w * 2) em :=
      roundFl_pos_eq _ _ hw2 hem
    have hq := roundFlPos_val (w * 2) em hw2 hem
    have hqpos : 0 < pairVal (roundFlPos (w * 2) em) :=
      lt_of_lt_of_le (by positivity) hq.1
    have hq52 : pairVal (roundFlPos (w * 2) em) ≤ (2 : ℚ) ^ (52 : ℕ) * (1 + eps64) := by
      have h1 : ((w * 2 : ℤ) : ℚ) / em ≤ ((w * 2 : ℤ) : ℚ) :=
        div_le_self (le_of_lt hw2') hone
      have h2 : ((w * 2 : ℤ) : ℚ) ≤ 2 ^ (52 : ℕ) := by
        have h3 : (2 : ℤ) ^ (52 : ℕ) = 2 * 2 ^ (51 : ℕ) := by ring
        have h4 : (w * 2 : ℤ) ≤ 2 ^ (52 : ℕ) := by omega
        exact_mod_cast h4
      have h5 : ((w * 2 : ℤ) : ℚ) / em * (1 + eps64) ≤
          2 ^ (52 : ℕ) * (1 + eps64) :=
        mul_le_mul_of_nonneg_right (le_trans h1 h2) (le_of_lt heps2)
      linarith [hq.2]
    have hqbd : pairVal (roundFlPos (w * 2) em) < (2 : ℚ) ^ (1024 : ℕ) := by
      have h5 : (2 : ℚ) ^ (52 : ℕ) * (1 + eps64) < 2 ^ (1024 : ℕ) := by
        norm_num [eps64]
      linarith
    have hqov : overflow64 (roundFlPos (w * 2) em) = false :=
      overflow64_false_of_lt hqpos hqbd
    have ha53 : a ≤ 2 ^ 53 := by
      have h1 : (2 : ℤ) ^ (53 : ℕ) = 4 * 2 ^ (51 : ℕ) := by ring
      omega
    have hafval : pairVal (roundFl a 1) = (a : ℚ) := roundFl_int_val a ha ha53
    have hafpos : 0 < pairVal (roundFl a 1) := by
      rw [hafval]
      exact_mod_cast ha
    have habq : (a : ℚ) ≤ (2 : ℚ) ^ (53 : ℕ) := by exact_mod_cast ha53
    have hafbd : pairVal (roundFl a 1) < (2 : ℚ) ^ (1024 : ℕ) := by
      rw [hafval]
      have h5 : ((2 : ℚ)) ^ (53 : ℕ) < 2 ^ (1024 : ℕ) := by norm_num
      linarith
    have hafov : overflow64 (roundFl a 1) = false :=
      overflow64_false_of_lt hafpos hafbd
    have hM : 0 < (roundFlPos (w * 2) em).1 * (roundFl a 1).1 :=
      mul_pos (pairVal_pos_mantissa hqpos) (pairVal_pos_mantissa hafpos)
    have hdy := roundFlDyadic_val ((roundFlPos (w * 2) em).1 * (roundFl a 1).1)
      ((roundFlPos (w * 2) em).2 + (roundFl a 1).2) hM
    have hPv : (((roundFlPos (w * 2) em).1 * (roundFl a 1).1 : ℤ) : ℚ) *
        2 ^ ((roundFlPos (w * 2) em).2 + (roundFl a 1).2) =
        pairVal (roundFlPos (w * 2) em) * (a : ℚ) := by
      have h0 := pairVal_mul (roundFlPos (w * 2) em) (roundFl a 1)
      rw [hafval] at h0
      exact h0
    rw [hPv] at hdy
    have hrpos : 0 < pairVal (roundFlDyadic
        ((roundFlPos (w * 2) em).1 * (roundFl a 1).1)
        ((roundFlPos (w * 2) em).2 + (roundFl a 1).2)) := by
      have ha' : (0 : ℚ) < (a : ℚ) := by exact_mod_cast ha
      calc (0 : ℚ) < pairVal (roundFlPos (w * 2) em) * (a : ℚ) * (1 - eps64) := by
            positivity
        _ ≤ _ := hdy.1
    have hrbd : pairVal (roundFlDyadic
        ((roundFlPos (w * 2) em).1 * (roundFl a 1).1)
        ((roundFlPos (w * 2) em).2 + (roundFl a 1).2)) < (2 : ℚ) ^ (1024 : ℕ) := by
      have ha0' : (0 : ℚ) ≤ (a : ℚ) := le_of_lt (by exact_mod_cast ha)
      have hb52 : (0 : ℚ) ≤ (2 : ℚ) ^ (52 : ℕ) * (1 + eps64) :=
        le_of_lt (mul_pos (pow_pos (by norm_num) 52) heps2)
      have h8 : pairVal (roundFlPos (w * 2) em) * (a : ℚ) ≤
          (2 : ℚ) ^ (52 : ℕ) * (1 + eps64) * 2 ^ (53 : ℕ) :=
        mul_le_mul hq52 habq ha0' hb52
      have h9 : pairVal (roundFlPos (w * 2) em) * (a : ℚ) * (1 + eps64) ≤
          (2 : ℚ) ^ (52 : ℕ) * (1 + eps64) * 2 ^ (53 : ℕ) * (1 + eps64) :=
        mul_le_mul_of_nonneg_right h8 (le_of_lt heps2)
      have h10 : (2 : ℚ) ^ (52 : ℕ) * (1 + eps64) * 2 ^ (53 : ℕ) * (1 + eps64) <
          2 ^ (1024 : ℕ) := by
        norm_num [eps64]
      linarith [hdy.2]
    have hrov : overflow64 (roundFlDyadic
        ((roundFlPos (w * 2) em).1 * (roundFl a 1).1)
        ((roundFlPos (w * 2) em).2 + (roundFl a 1).2)) = false :=
      overflow64_false_of_lt hrpos hrbd
    have hok : modifyCalcE em a w t = Except.ok
        { ascent := newAscentCode em a w
          descent := w * 2 - newAscentCode em a w
          os2_winascent := newAscentCode em a w
          os2_windescent := w * 2 - newAscentCode em a w
          os2_typoascent := newAscentCode em a w
          os2_typodescent := -1 * (w * 2 - newAscentCode em a w)
          hhea_ascent := newAscentCode em a w
          hhea_descent := -1 * (w * 2 - newAscentCode em a w)
          upos := -1 * ((w * 2 - newAscentCode em a w) - t) } := by
      simp only [modifyCalcE, hne, if_false, hqeq, hqov, hafov, hrov,
        Bool.false_eq_true, newAscentCode]
    rw [hok, modifyCalcE_ok em a w t _ hok]
    exact ⟨rfl, rfl⟩

/-- C5 witness: the amended theorem's success conjunct applied at
`em = 1000, oldAscent = 800, fixedWidth = 600, preset = 91`. -/
theorem c5_witness :
    Except.toOption (modifyCalcE 1000 800 600 91) = modifyCalc 1000 800 600 91 ∧
    (modifyCalcE 1000 800 600 91).isOk = true :=
  c5_error_conditions.2.2 1000 800 600 91 (by norm_num) (by norm_num) (by norm_num)
    (by norm_num) (by norm_num) (by norm_num)

/-- C6 counterexample: with `oldName = "Foo"` and `newName = "FooX"` the
comment written at source line 115 is
`"This font is the X version(EM W:H=1:2) of Foo"`, which mentions the old
name but does not contain the new name `"FooX"`, contradicting the claim
that the comment contains both. -/
theorem c6_counterexample_comment_lacks_new_name :
    strContains (renameFont ("FooX") ⟨"Foo", "Foo", "Foo", "", ""⟩).comment ("FooX") =
        false ∧
      (renameFont ("FooX") ⟨"Foo", "Foo", "Foo", "", ""⟩).comment =
        "This font is the X version(EM W:H=1:2) of Foo" :=
  ⟨by decide, by decide⟩

/-- C6 (amended): after renaming, the comment field contains a reference to
the old name (it is the provenance note
`"This font is the X version(EM W:H=1:2) of {oldName}"`), but not in general
the new name; the new name is installed in the fontname, familyname and
fullname fields instead. -/
theorem c6_comment_mentions_old_name (newName : String) (st : NamingState) :
    strContains (renameFont newName st).comment st.fontname = true ∧
    (renameFont newName st).fontname = newName ∧
    (renameFont newName st).familyname = newName ∧
    (renameFont newName st).fullname = newName := by
  refine ⟨?_, rfl, rfl, rfl⟩
  show strContains (mkComment st.fontname) st.fontname = true
  unfold strContains mkComment
  rw [String.data_append]
  exact hasSub_append_self _ _

/-- C7: after renaming, the copyright field is exactly the original
copyright string with the new comment appended on a new line (source line
116), so the prior copyright text is preserved as a prefix. -/
theorem c7_copyright_appends_comment (newName : String) (st : NamingState) :
    (renameFont newName st).copyright =
      st.copyright ++ "\n" ++ (renameFont newName st).comment ∧
    strIsPref st.copyright (renameFont newName st).copyright = true := by
  constructor
  · show st.copyright ++ ("\n" ++ mkComment st.fontname) =
      st.copyright ++ "\n" ++ mkComment st.fontname
    rw [String.append_assoc]
  · show strIsPref st.copyright (st.copyright ++ ("\n" ++ mkComment st.fontname)) = true
    unfold strIsPref
    rw [String.data_append]
    exact isPref_append _ _

/-- C8: the configured `SOURCE_FILE` is used unchanged when it is an
absolute path, and otherwise is resolved relative to the configuration
file's directory (source line 84): the resolved path is the join of the
working directory and the configured value, with the working directory as a
prefix. -/
theorem c8_source_path_resolution (wd src : String) :
    (isAbsPath src = true → sourceFilePath wd src = src) ∧
    (isAbsPath src = false →
      sourceFilePath wd src = pathJoin wd src ∧
      strIsPref wd (sourceFilePath wd src) = true) := by
  constructor
  · intro h
    simp [sourceFilePath, h]
  · intro h
    have hname : sourceFilePath wd src = pathJoin wd src := by
      simp [sourceFilePath, h]
    refine ⟨hname, ?_⟩
    rw [hname]
    unfold strIsPref pathJoin
    rw [String.data_append]
    exact isPref_append _ _

/-- C8 witness: an absolute source path is used unchanged. -/
theorem c8_witness : sourceFilePath ("cfgdir") ("/fonts/a.sfd") = "/fonts/a.sfd" :=
  (c8_source_path_resolution ("cfgdir") ("/fonts/a.sfd")).1 (by decide)

/-- C9 counterexample: with `SOURCE_FILE = "a.otf"` and
`NEW_FONT_NAME = "aX"` the copied document is named `aX.sfd` (the `.sfd`
extension is hard-coded at source line 85), not `aX` followed by the source
document's own extension `.otf`, contradicting the claim. -/
theorem c9_counterexample_extension_not_preserved :
    extOf ("a.otf") = ".otf" ∧
    targetSourceFile (".") ("aX") = "./aX/aX.sfd" ∧
    strIsSuffix (extOf ("a.otf")) (targetSourceFile (".") ("aX")) = false :=
  ⟨by decide, by decide, by decide⟩

/-- C9 (amended): each run produces a subdirectory named after the new font
name, containing a copy of the source document named
`<NEW_FONT_NAME>.sfd` — with the fixed `.sfd` extension, regardless of the
configured source file's own extension — and the compiled binary named
`<NEW_FONT_NAME>.ttf`, both inside that subdirectory. -/
theorem c9_output_layout (wd newName : String) :
    targetDir wd newName = pathJoin wd newName ∧
    targetSourceFile wd newName =
      pathJoin (targetDir wd newName) (newName ++ ".sfd") ∧
    targetExportedFile wd newName =
      pathJoin (targetDir wd newName) (newName ++ ".ttf") ∧
    strIsPref (targetDir wd newName) (targetSourceFile wd newName) = true ∧
    strIsPref (targetDir wd newName) (targetExportedFile wd newName) = true ∧
    strIsSuffix (".sfd") (targetSourceFile wd newName) = true ∧
    strIsSuffix (".ttf") (targetExportedFile wd newName) = true := by
  refine ⟨rfl, rfl, rfl, ?_, ?_, ?_, ?_⟩
  · show strIsPref (targetDir wd newName)
      (targetDir wd newName ++ ("/" ++ (newName ++ ".sfd"))) = true
    unfold strIsPref
    rw [String.data_append]
    exact isPref_append _ _
  · show strIsPref (targetDir wd newName)
      (targetDir wd newName ++ ("/" ++ (newName ++ ".ttf"))) = true
    unfold strIsPref
    rw [String.data_append]
    exact isPref_append _ _
  · have hsplit : targetSourceFile wd newName =
        (targetDir wd newName ++ ("/" ++ newName)) ++ ".sfd" := by
      show targetDir wd newName ++ ("/" ++ (newName ++ ".sfd")) =
        (targetDir wd newName ++ ("/" ++ newName)) ++ ".sfd"
      rw [String.append_assoc, String.append_assoc]
    rw [hsplit]
    exact strIsSuffix_append _ _
  · have hsplit : targetExportedFile wd newName =
        (targetDir wd newName ++ ("/" ++ newName)) ++ ".ttf" := by
      show targetDir wd newName ++ ("/" ++ (newName ++ ".ttf")) =
        (targetDir wd newName ++ ("/" ++ newName)) ++ ".ttf"
      rw [String.append_assoc, String.append_assoc]
    rw [hsplit]
    exact strIsSuffix_append _ _

/-- C10 counterexample: the claim asserts the computed descent is
nonnegative for every `em > 0`, `0 < oldAscent < em`, `fixedWidth > 0`.  At
`em = 18014398510256295` (just above `2^54`), `oldAscent = em - 1`,
`fixedWidth = 276494`, the two binary64 roundings of line 103 push the
product above `2 * fixedWidth = 552988`, the ascent becomes `552989`, and
the descent computed at line 104 is `-1`. -/
theorem c10_counterexample_negative_descent :
    (0 : ℤ) < 18014398510256294 ∧
    (18014398510256294 : ℤ) < 18014398510256295 ∧
    (0 : ℤ) < 276494 ∧
    modifyCalc 18014398510256295 18014398510256294 276494 91 =
      some ⟨552989, -1, 552989, -1, 552989, 1, 552989, 1, 92⟩ ∧
    (⟨552989, -1, 552989, -1, 552989, 1, 552989, 1, 92⟩ : FontMetrics).descent < 0 :=
  ⟨by decide, by decide, by decide, by decide, by decide⟩

/-- C10 (amended): for every `em > 0`, `0 < oldAscent < em`,
`fixedWidth > 0` with `em ≤ 2^51` (which covers every realistic font em
size; without such a bound the floating-point rounding of line 103 can
produce a negative descent), the computed descent is nonnegative and the
computed ascent is at least 1. -/
theorem c10_descent_nonneg_ascent_pos (em a w t : ℤ) (m : FontMetrics)
    (hem : 0 < em) (ha0 : 0 < a) (haem : a < em) (hw : 0 < w)
    (hbound : em ≤ 2 ^ 51)
    (h : modifyCalc em a w t = some m) :
    0 ≤ m.descent ∧ 1 ≤ m.ascent := by
  rw [modifyCalc_some em a w t (by omega)] at h
  simp only [Option.some.injEq] at h
  subst h
  dsimp only
  have ha53 : a ≤ 2 ^ 53 := by
    have h1 : (2 : ℤ) ^ 51 ≤ 2 ^ 53 := by norm_num
    omega
  obtain ⟨v, hceil, hvpos, hvle⟩ := newAscentCode_bounds em a w hem ha0 ha53 hw
  have hasc1 : 1 ≤ newAscentCode em a w := by
    rw [hceil]
    have := Int.ceil_pos.mpr hvpos
    omega
  have hu : eps64 = 1 / 9007199254740992 := by norm_num [eps64]
  have hem' : (0 : ℚ) < (em : ℚ) := by exact_mod_cast hem
  have hw2' : (0 : ℚ) < ((w * 2 : ℤ) : ℚ) := by
    exact_mod_cast (show (0 : ℤ) < w * 2 by omega)
  have hA : (a : ℚ) ≤ (em : ℚ) - 1 := by
    have h1 : a ≤ em - 1 := by omega
    have h2 : (a : ℚ) ≤ ((em - 1 : ℤ) : ℚ) := by exact_mod_cast h1
    push_cast at h2
    linarith
  have hE : (em : ℚ) ≤ 2251799813685248 := by
    have h1 : (em : ℚ) ≤ ((2 ^ 51 : ℤ) : ℚ) := by exact_mod_cast hbound
    norm_num at h1
    linarith
  have hc : (a : ℚ) * ((1 + eps64) * (1 + eps64)) ≤ (em : ℚ) := by
    rw [hu]
    nlinarith [hA, hE]
  have hvle2 : v ≤ ((w * 2 : ℤ) : ℚ) := by
    have hmain : ((w * 2 : ℤ) : ℚ) / (em : ℚ) * (a : ℚ) *
        ((1 + eps64) * (1 + eps64)) ≤ ((w * 2 : ℤ) : ℚ) := by
      rw [div_mul_eq_mul_div, div_mul_eq_mul_div, div_le_iff hem']
      nlinarith [mul_le_mul_of_nonneg_left hc (le_of_lt hw2')]
    linarith
  have hcw : newAscentCode em a w ≤ w * 2 := by
    rw [hceil]
    apply Int.ceil_le.mpr
    exact_mod_cast hvle2
  exact ⟨by omega, hasc1⟩

/-- C10 witness at `em = 1000, oldAscent = 800, fixedWidth = 600`:
descent `240 ≥ 0` and ascent `960 ≥ 1`. -/
theorem c10_witness :
    0 ≤ (⟨960, 240, 960, 240, 960, -240, 960, -240, -149⟩ : FontMetrics).descent ∧
    1 ≤ (⟨960, 240, 960, 240, 960, -240, 960, -240, -149⟩ : FontMetrics).ascent :=
  c10_descent_nonneg_ascent_pos 1000 800 600 91 _ (by norm_num) (by norm_num)
    (by norm_num) (by norm_num) (by norm_num) (by decide)

